import Mathlib

/-!
Verification of the blood-result extraction pipeline (`src/extract/app.py`).

The embedding models the pure core of the program:
* `parse_extracted_text` (app.py lines 89-128): anchor search, adjacent-value
  read, percent-style trim, unit-suffix trim, dict assignment;
* `insert_to_airtable` (app.py lines 131-164): comma-to-period numeric
  conversion of every value, field/record payload construction;
* `lambda_handler` (app.py lines 14-38): the response envelope built at the
  end of a successful invocation.

External effects (S3, Textract, HTTP, wall clock) are modelled as parameters:
the block sequence, the catalog and the current date string are inputs, and
fallible steps return `Option`.
-/

namespace BloodExtract

/-- Prefix test on character lists: `isPrefixList n h` is true when `n` is an
initial segment of `h`.  Building block for Python's `in` substring test. -/
def isPrefixList : List Char → List Char → Bool
  | [], _ => true
  | _ :: _, [] => false
  | c :: cs, d :: ds => c == d && isPrefixList cs ds

/-- Containment of `needle` as a contiguous run inside the hay list; the
semantics of Python's `needle in hay` on strings (empty needle always
contained). -/
def containsAt (needle : List Char) : List Char → Bool
  | [] => needle.isEmpty
  | d :: ds => isPrefixList needle (d :: ds) || containsAt needle ds

/-- Python's `needle in hay` substring test, case-sensitive. -/
def strContains (hay needle : String) : Bool :=
  containsAt needle.toList hay.toList

/-- Index of the first space in a character list; `none` models Python
`find(" ") == -1`. -/
def findFirstSpace : List Char → Option Nat
  | [] => none
  | c :: cs => if c == ' ' then some 0 else (findFirstSpace cs).map (· + 1)

/-- Python `s.find(" ")`, with `none` standing for the -1 "not found" result. -/
def findSpace (s : String) : Option Nat :=
  findFirstSpace s.toList

/-- Whether the string contains a space character. -/
def hasSpace (s : String) : Bool :=
  s.toList.any (fun c => c == ' ')

/-- One Textract block: an entry of `extracted_text["Blocks"]`, whose
`"Text"` key may be absent (app.py line 99 uses `d.get("Text")`). -/
structure Block where
  text : Option String
deriving DecidableEq, Repr

/-- The anchor predicate of app.py line 99:
`d.get("Text") and test in d.get("Text")`.  A missing or empty text payload
is falsy in Python, hence never matches. -/
def blockMatches (t : String) (b : Block) : Bool :=
  match b.text with
  | some s => (!(s == "")) && strContains s t
  | none => false

/-- The generator-plus-`next` scan of app.py lines 95-102: index of the first
block matching the test, `none` when no block matches. -/
def findAnchor (t : String) : List Block → Option Nat
  | [] => none
  | b :: bs => if blockMatches t b then some 0 else (findAnchor t bs).map (· + 1)

/-- Text payload of the block at index `i`; `none` models both the
`IndexError` of an out-of-range subscript and the `KeyError` of a missing
`"Text"` key (app.py line 106). -/
def blockTextAt (blocks : List Block) (i : Nat) : Option String :=
  match blocks[i]? with
  | some b => b.text
  | none => none

/-- The raw candidate value for a test: the text of the block one past the
anchor (app.py lines 104-106); `none` when the anchor is missing (the
unguarded `index + 1` on `None`) or the next block is unusable. -/
def rawCandidate (blocks : List Block) (t : String) : Option String :=
  match findAnchor t blocks with
  | some i => blockTextAt blocks (i + 1)
  | none => none

/-- The fixed percent-style subset of app.py lines 111-117. -/
def percentTests : List String := ["BASO", "NEU%", "LYMPH%", "MON%", "EOS%"]

/-- Percent-style trim, app.py lines 109-120: for a percent-style test, when a
space exists (`find(" ") != -1`), keep everything before the first space. -/
def percentTrim (t s : String) : String :=
  if percentTests.contains t then
    match findSpace s with
    | some i => ⟨s.toList.take i⟩
    | none => s
  else s

/-- The marker substrings scanned by the unit-suffix trim, app.py line 122. -/
def markers : List String := ["^", "/", "%", "fl", "pg"]

/-- Unit-suffix trim, app.py lines 122-125: when any marker occurs in the
candidate, slice `next_block[0 : next_block.find(" ")]`; with no space the
find yields -1 and the Python slice keeps all but the last character. -/
def unitTrim (s : String) : String :=
  if markers.any (fun m => strContains s m) then
    match findSpace s with
    | some i => ⟨s.toList.take i⟩
    | none => ⟨s.toList.take (s.toList.length - 1)⟩
  else s

/-- The value stored for a test from its raw candidate: percent-style trim
then unit-suffix trim (app.py lines 109-127). -/
def storedValue (t s : String) : String :=
  unitTrim (percentTrim t s)

/-- Processing of one catalog test: anchor lookup, adjacent read, both trims;
`none` models the uncaught exception aborting the extraction. -/
def processTest (blocks : List Block) (t : String) : Option String :=
  match rawCandidate blocks t with
  | some raw => some (storedValue t raw)
  | none => none

/-- Python dict assignment `d[k] = v` on an insertion-ordered association
list: overwrite in place when the key exists, append otherwise. -/
def dictInsert {α : Type} (d : List (String × α)) (k : String) (v : α) :
    List (String × α) :=
  if d.any (fun p => p.1 == k) then
    d.map (fun p => if p.1 == k then (k, v) else p)
  else d ++ [(k, v)]

/-- The catalog loop of `parse_extracted_text`, carrying the `blood_result`
dict; any failing test aborts the whole extraction. -/
def parseAux (blocks : List Block) :
    List String → List (String × String) → Option (List (String × String))
  | [], acc => some acc
  | t :: ts, acc =>
    match processTest blocks t with
    | some v => parseAux blocks ts (dictInsert acc t v)
    | none => none

/-- `parse_extracted_text` of app.py lines 89-128, with the module-level
catalog (`morphology`) passed explicitly as configuration. -/
def parse_extracted_text (blocks : List Block) (catalog : List String) :
    Option (List (String × String)) :=
  parseAux blocks catalog []

/-- A clean numeric string: nonempty and made only of digits, periods and
decimal commas. -/
def isCleanNumeric (s : String) : Bool :=
  (!s.toList.isEmpty) && s.toList.all (fun c => c.isDigit || c == '.' || c == ',')

/-- Value of a digit list read in base 10. -/
def digitsVal (l : List Char) : Nat :=
  l.foldl (fun n c => 10 * n + (c.toNat - 48)) 0

/-- Numeric parsing model for Python's `float` builtin, restricted to the
unsigned decimal literals this pipeline produces; the value is returned as an
exact rational, and `none` models the `ValueError` of an unparseable string. -/
def parseDecimal (s : String) : Option ℚ :=
  let l := s.toList
  if (!l.isEmpty) && l.all (fun c => c.isDigit || c == '.')
      && Nat.ble (l.countP (fun c => c == '.')) 1 && l.any (fun c => c.isDigit) then
    let intPart := l.takeWhile (fun c => !(c == '.'))
    let fracPart := (l.dropWhile (fun c => !(c == '.'))).drop 1
    some (mkRat (digitsVal intPart * 10 ^ fracPart.length + digitsVal fracPart)
      (10 ^ fracPart.length))
  else none

/-- Python `v.replace(",", ".")` for the single-character arguments used at
app.py line 144: substitute every comma by a period. -/
def commaToPeriod (s : String) : String :=
  ⟨s.toList.map (fun c => if c == ',' then '.' else c)⟩

/-- Conversion of one extracted value string: `float(v.replace(",", "."))`
(app.py lines 144-145). -/
def convertValue (v : String) : Option ℚ :=
  parseDecimal (commaToPeriod v)

/-- The conversion loop of app.py lines 143-145 over the whole blood-result
mapping; one unparseable value aborts the invocation. -/
def convertValues : List (String × String) → Option (List (String × ℚ))
  | [] => some []
  | kv :: rest =>
    match convertValue kv.2 with
    | some q =>
      match convertValues rest with
      | some cs => some ((kv.1, q) :: cs)
      | none => none
    | none => none

/-- A field value of the Airtable record: the date string or a numeric test
result. -/
inductive FieldVal where
  | str : String → FieldVal
  | num : ℚ → FieldVal
deriving DecidableEq, Repr

/-- The JSON payload POSTed to Airtable: a list of records, each a mapping of
field names to values (app.py line 152). -/
structure AirtablePayload where
  records : List (List (String × FieldVal))
deriving DecidableEq, Repr

/-- The `fields` dict of app.py lines 150-151: `{"date": formatted_date}`
then `fields.update(blood_result)`. -/
def buildFields (today : String) (conv : List (String × ℚ)) :
    List (String × FieldVal) :=
  conv.foldl (fun acc kv => dictInsert acc kv.1 (FieldVal.num kv.2))
    [("date", FieldVal.str today)]

/-- `insert_to_airtable` of app.py lines 131-164, with the wall-clock date
string as a parameter.  Returns the mutated blood-result mapping (the loop at
lines 143-145 replaces every value in place) together with the payload that
is POSTed and returned. -/
def insert_to_airtable (today : String) (blood_result : List (String × String)) :
    Option (List (String × ℚ) × AirtablePayload) :=
  match convertValues blood_result with
  | some conv => some (conv, { records := [buildFields today conv] })
  | none => none

/-- The response dict of app.py lines 29-36: a status code and a single-field
JSON body. -/
structure Response where
  statusCode : Nat
  bodyField : String
  bodyValue : String
deriving DecidableEq, Repr

/-- Observable outcome of a successful invocation: the response dict that is
constructed and logged, and the value the handler actually returns to its
caller (`None` in the source, which has no return statement). -/
structure HandlerResult where
  logged : Response
  returned : Option Response
deriving DecidableEq, Repr

/-- `lambda_handler` of app.py lines 14-38 after the external services
resolved: extraction, Airtable insertion, then the response envelope whose
body holds the string rendering of the inserted payload (the f-string at line
33, modelled by `reprStr`) under the key `"insertedRows"`.  The function body
ends with a log call, so the handler returns `None`. -/
def lambda_handler (today : String) (blocks : List Block) (catalog : List String) :
    Option HandlerResult :=
  match parse_extracted_text blocks catalog with
  | some blood_result =>
    match insert_to_airtable today blood_result with
    | some (_, payload) =>
      some { logged := { statusCode := 200, bodyField := "insertedRows",
                         bodyValue := reprStr payload },
             returned := none }
    | none => none
  | none => none

/-- Value stored for a test when processing succeeds (default irrelevant). -/
def valueOf (blocks : List Block) (t : String) : String :=
  (processTest blocks t).getD ""

/-- A test is cleanly anchored in a block sequence: the scan finds an anchor
whose text is exactly the test identifier, and the following block carries a
clean numeric string. -/
def anchoredClean (blocks : List Block) (t : String) : Prop :=
  ∃ i v, findAnchor t blocks = some i ∧ blockTextAt blocks i = some t ∧
    blockTextAt blocks (i + 1) = some v ∧ isCleanNumeric v = true

/-- Blocks of the end-to-end scenario: each catalog test name is its own
block, immediately followed by a clean numeric block. -/
def blocksE2E : List Block :=
  [⟨some "WBC"⟩, ⟨some "5.2"⟩, ⟨some "NEU%"⟩, ⟨some "60"⟩]

/-- Blocks where an earlier block strictly contains the test name as a
substring, ahead of the block whose text equals the test name. -/
def blocksFirstMatch : List Block :=
  [⟨some "WBCX"⟩, ⟨some "junk"⟩, ⟨some "WBC"⟩, ⟨some "5.2"⟩]

/-- Blocks in which the test "WBC" never occurs. -/
def blocksMissing : List Block :=
  [⟨some "ABC"⟩, ⟨some "1.0"⟩]

/-- Blocks whose anchor for "NEU%" is a strict superstring, after a block
with no text payload. -/
def blocksSubstring : List Block :=
  [⟨none⟩, ⟨some "xNEU%y"⟩, ⟨some "60 10^9/L"⟩]

/-- Blocks for a minimal successful handler invocation. -/
def blocksHandler : List Block :=
  [⟨some "WBC"⟩, ⟨some "5.2"⟩]

/-- The Airtable payload produced from `blocksHandler` on 2024-01-01. -/
def payloadHandler : AirtablePayload :=
  ⟨[[("date", FieldVal.str "2024-01-01"), ("WBC", FieldVal.num (mkRat 52 10))]]⟩

/-! ### Helper lemmas: spaces, substring containment, clean numeric strings -/

theorem findFirstSpace_eq_none (l : List Char)
    (h : l.any (fun c => c == ' ') = false) : findFirstSpace l = none := by
  induction l with
  | nil => rfl
  | cons c cs ih =>
    rw [List.any_cons, Bool.or_eq_false_iff] at h
    simp [findFirstSpace, h.1, ih h.2]

theorem findFirstSpace_exists (l : List Char)
    (h : l.any (fun c => c == ' ') = true) : ∃ i, findFirstSpace l = some i := by
  induction l with
  | nil => simp at h
  | cons c cs ih =>
    cases hc : (c == ' ') with
    | true => exact ⟨0, by simp [findFirstSpace, hc]⟩
    | false =>
      rw [List.any_cons, hc, Bool.false_or] at h
      obtain ⟨i, hi⟩ := ih h
      exact ⟨i + 1, by simp [findFirstSpace, hc, hi]⟩

theorem findFirstSpace_take (l : List Char) : ∀ i, findFirstSpace l = some i →
    l.take i = l.takeWhile (fun c => !(c == ' ')) := by
  induction l with
  | nil => intro i h; simp [findFirstSpace] at h
  | cons c cs ih =>
    intro i h
    rw [findFirstSpace] at h
    cases hc : (c == ' ') with
    | true =>
      rw [if_pos hc] at h
      injection h with h0
      subst h0
      simp [List.takeWhile_cons, hc]
    | false =>
      have hcn : ¬ ((c == ' ') = true) := by simp [hc]
      rw [if_neg hcn] at h
      cases hfs : findFirstSpace cs with
      | none => rw [hfs] at h; simp at h
      | some j =>
        rw [hfs] at h
        simp only [Option.map_some', Option.some.injEq] at h
        subst h
        simp [List.takeWhile_cons, hc, List.take_succ_cons, ih j hfs]

theorem isPrefixList_head_mem (l : List Char) (c : Char) (cs : List Char)
    (h : isPrefixList (c :: cs) l = true) : c ∈ l := by
  cases l with
  | nil => simp [isPrefixList] at h
  | cons d ds =>
    rw [isPrefixList, Bool.and_eq_true] at h
    have : c = d := by simpa using h.1
    subst this
    exact List.mem_cons_self c ds

theorem containsAt_head_mem (c : Char) (cs : List Char) :
    ∀ hay : List Char, containsAt (c :: cs) hay = true → c ∈ hay := by
  intro hay
  induction hay with
  | nil => intro h; simp [containsAt, List.isEmpty] at h
  | cons d ds ih =>
    intro h
    rw [containsAt, Bool.or_eq_true] at h
    rcases h with h | h
    · exact isPrefixList_head_mem _ c cs h
    · exact List.mem_cons_of_mem d (ih h)

theorem hasSpace_eq_false_of_clean (v : String) (hv : isCleanNumeric v = true) :
    hasSpace v = false := by
  rw [isCleanNumeric, Bool.and_eq_true] at hv
  by_contra hcon
  rw [Bool.not_eq_false] at hcon
  obtain ⟨c, hc, hsp⟩ := List.any_eq_true.mp hcon
  have hcv := List.all_eq_true.mp hv.2 c hc
  have : c = ' ' := by simpa using hsp
  subst this
  exact absurd hcv (by decide)

theorem clean_not_contains (v : String) (hv : isCleanNumeric v = true)
    (c : Char) (cs : List Char)
    (hc : (c.isDigit || c == '.' || c == ',') = false) :
    containsAt (c :: cs) v.toList = false := by
  rw [isCleanNumeric, Bool.and_eq_true] at hv
  by_contra hcon
  rw [Bool.not_eq_false] at hcon
  have hmem := containsAt_head_mem c cs v.toList hcon
  have := List.all_eq_true.mp hv.2 c hmem
  rw [hc] at this
  exact absurd this (by decide)

theorem markers_not_in_clean (v : String) (hv : isCleanNumeric v = true) :
    markers.any (fun m => strContains v m) = false := by
  have h1 : strContains v "^" = false := clean_not_contains v hv '^' [] (by decide)
  have h2 : strContains v "/" = false := clean_not_contains v hv '/' [] (by decide)
  have h3 : strContains v "%" = false := clean_not_contains v hv '%' [] (by decide)
  have h4 : strContains v "fl" = false := clean_not_contains v hv 'f' ['l'] (by decide)
  have h5 : strContains v "pg" = false := clean_not_contains v hv 'p' ['g'] (by decide)
  simp [markers, h1, h2, h3, h4, h5]

/-! ### Helper lemmas: the two trim passes -/

theorem percentTrim_of_no_space (t s : String) (hs : hasSpace s = false) :
    percentTrim t s = s := by
  have hfs : findSpace s = none := findFirstSpace_eq_none s.toList hs
  cases hct : percentTests.contains t <;> simp [percentTrim, hct, hfs]

theorem percentTrim_of_space (t s : String) (ht : t ∈ percentTests)
    (hs : hasSpace s = true) :
    percentTrim t s = ⟨s.toList.takeWhile (fun c => !(c == ' '))⟩ := by
  obtain ⟨i, hi⟩ := findFirstSpace_exists s.toList hs
  have hfs : findSpace s = some i := hi
  have hct : percentTests.contains t = true := by simpa using ht
  rw [percentTrim, if_pos hct, hfs]
  exact congrArg String.mk (findFirstSpace_take s.toList i hi)

theorem unitTrim_of_marker_no_space (s : String)
    (hm : markers.any (fun m => strContains s m) = true)
    (hs : hasSpace s = false) :
    unitTrim s = ⟨s.toList.dropLast⟩ := by
  have hfs : findSpace s = none := findFirstSpace_eq_none s.toList hs
  simp [unitTrim, hm, hfs, List.dropLast_eq_take]

theorem storedValue_id_of_clean (t v : String) (hv : isCleanNumeric v = true) :
    storedValue t v = v := by
  rw [storedValue, percentTrim_of_no_space t v (hasSpace_eq_false_of_clean v hv)]
  simp [unitTrim, markers_not_in_clean v hv]

/-! ### Helper lemmas: the anchor scan -/

theorem findAnchor_some (t : String) : ∀ (blocks : List Block) (i : Nat),
    findAnchor t blocks = some i →
    (∃ b, blocks[i]? = some b ∧ blockMatches t b = true) ∧
    (∀ j, j < i → ∀ b, blocks[j]? = some b → blockMatches t b = false) := by
  intro blocks
  induction blocks with
  | nil => intro i h; simp [findAnchor] at h
  | cons b bs ih =>
    intro i h
    rw [findAnchor] at h
    cases hmb : blockMatches t b with
    | true =>
      rw [if_pos hmb] at h
      injection h with h0
      subst h0
      refine ⟨⟨b, by simp, hmb⟩, ?_⟩
      intro j hj
      omega
    | false =>
      have hmn : ¬ (blockMatches t b = true) := by simp [hmb]
      rw [if_neg hmn] at h
      cases hfa : findAnchor t bs with
      | none => rw [hfa] at h; simp at h
      | some k =>
        rw [hfa] at h
        simp only [Option.map_some', Option.some.injEq] at h
        subst h
        obtain ⟨⟨b', hb', hmb'⟩, hearly⟩ := ih k hfa
        refine ⟨⟨b', by simpa using hb', hmb'⟩, ?_⟩
        intro j hj b'' hb''
        cases j with
        | zero =>
          simp at hb''
          subst hb''
          exact hmb
        | succ j' =>
          exact hearly j' (by omega) b'' (by simpa using hb'')

theorem findAnchor_eq_none (t : String) : ∀ blocks : List Block,
    (∀ b ∈ blocks, blockMatches t b = false) → findAnchor t blocks = none := by
  intro blocks
  induction blocks with
  | nil => intro _; rfl
  | cons b bs ih =>
    intro h
    have hb : blockMatches t b = false := h b (List.mem_cons_self b bs)
    have hbs := ih (fun b' hb' => h b' (List.mem_cons_of_mem b hb'))
    simp [findAnchor, hb, hbs]

/-! ### Helper lemmas: the catalog loop -/

theorem processTest_eq_none_of_missing (blocks : List Block) (t : String)
    (hmiss : ∀ b ∈ blocks, blockMatches t b = false) :
    processTest blocks t = none := by
  simp [processTest, rawCandidate, findAnchor_eq_none t blocks hmiss]

theorem parseAux_eq_none (blocks : List Block) (t : String) :
    ∀ (ts : List String) (acc : List (String × String)), t ∈ ts →
    processTest blocks t = none → parseAux blocks ts acc = none := by
  intro ts
  induction ts with
  | nil => intro acc h; simp at h
  | cons u us ih =>
    intro acc hmem hnone
    rcases List.mem_cons.mp hmem with rfl | hmem'
    · simp [parseAux, hnone]
    · cases hpu : processTest blocks u with
      | none => simp [parseAux, hpu]
      | some v =>
        simp only [parseAux, hpu]
        exact ih (dictInsert acc u v) hmem' hnone

theorem dictInsert_append {α : Type} (d : List (String × α)) (k : String) (v : α)
    (h : d.any (fun p => p.1 == k) = false) :
    dictInsert d k v = d ++ [(k, v)] := by
  simp only [dictInsert, h]
  simp

theorem parseAux_complete (blocks : List Block) :
    ∀ (ts : List String) (acc : List (String × String)), ts.Nodup →
    (∀ u ∈ ts, (processTest blocks u).isSome) →
    (∀ u ∈ ts, acc.any (fun p => p.1 == u) = false) →
    parseAux blocks ts acc =
      some (acc ++ ts.map (fun u => (u, valueOf blocks u))) := by
  intro ts
  induction ts with
  | nil => intro acc _ _ _; simp [parseAux]
  | cons u us ih =>
    intro acc hnd hsome hacc
    obtain ⟨v, hv⟩ :=
      Option.isSome_iff_exists.mp (hsome u (List.mem_cons_self u us))
    have hval : valueOf blocks u = v := by simp [valueOf, hv]
    simp only [parseAux, hv]
    rw [dictInsert_append acc u v (hacc u (List.mem_cons_self u us))]
    rw [ih (acc ++ [(u, v)]) hnd.of_cons
      (fun w hw => hsome w (List.mem_cons_of_mem u hw)) ?_]
    · rw [List.append_assoc]
      simp [hval]
    · intro w hw
      rw [List.any_append, hacc w (List.mem_cons_of_mem u hw), Bool.false_or]
      have hne : u ≠ w := by
        intro he
        exact (List.nodup_cons.mp hnd).1 (he ▸ hw)
      simp [hne]

/-! ### Helper lemmas: numeric conversion -/

theorem convertValues_some_spec :
    ∀ (m : List (String × String)) (conv : List (String × ℚ)),
    convertValues m = some conv →
    conv.map Prod.fst = m.map Prod.fst ∧
    List.Forall₂
      (fun a b => a.1 = b.1 ∧ parseDecimal (commaToPeriod a.2) = some b.2)
      m conv := by
  intro m
  induction m with
  | nil =>
    intro conv h
    simp only [convertValues, Option.some.injEq] at h
    subst h
    exact ⟨rfl, List.Forall₂.nil⟩
  | cons kv rest ih =>
    intro conv h
    rw [convertValues] at h
    cases hq : convertValue kv.2 with
    | none => rw [hq] at h; simp at h
    | some q =>
      rw [hq] at h
      cases hr : convertValues rest with
      | none => rw [hr] at h; simp at h
      | some cs =>
        rw [hr] at h
        simp only [Option.some.injEq] at h
        subst h
        obtain ⟨hkeys, hall⟩ := ih cs hr
        exact ⟨by simp [hkeys], List.Forall₂.cons ⟨rfl, hq⟩ hall⟩

theorem convertValues_none_iff (m : List (String × String)) :
    convertValues m = none ↔
    ∃ kv ∈ m, parseDecimal (commaToPeriod kv.2) = none := by
  induction m with
  | nil => simp [convertValues]
  | cons kv rest ih =>
    rw [convertValues]
    cases hq : convertValue kv.2 with
    | none =>
      constructor
      · intro _
        exact ⟨kv, List.mem_cons_self kv rest, hq⟩
      · intro _
        rfl
    | some q =>
      cases hr : convertValues rest with
      | none =>
        constructor
        · intro _
          obtain ⟨kv', hkv', hp⟩ := ih.mp hr
          exact ⟨kv', List.mem_cons_of_mem kv hkv', hp⟩
        · intro _
          rfl
      | some cs =>
        constructor
        · intro h
          exact Option.noConfusion h
        · rintro ⟨kv', hkv', hp⟩
          exfalso
          rcases List.mem_cons.mp hkv' with rfl | hkv''
          · have hq' : parseDecimal (commaToPeriod kv'.2) = some q := hq
            rw [hp] at hq'
            exact Option.noConfusion hq'
          · have h2 : convertValues rest = none := ih.mpr ⟨kv', hkv'', hp⟩
            rw [hr] at h2
            exact Option.noConfusion h2

/-! ### Helper lemmas: payload construction -/

theorem foldl_fieldInsert :
    ∀ (conv : List (String × ℚ)) (acc : List (String × FieldVal)),
    (conv.map Prod.fst).Nodup →
    (∀ kv ∈ conv, acc.any (fun p => p.1 == kv.1) = false) →
    conv.foldl (fun a kv => dictInsert a kv.1 (FieldVal.num kv.2)) acc =
      acc ++ conv.map (fun kv => (kv.1, FieldVal.num kv.2)) := by
  intro conv
  induction conv with
  | nil => intro acc _ _; simp
  | cons kv rest ih =>
    intro acc hnd hacc
    have hnd2 := hnd
    rw [List.map_cons, List.nodup_cons] at hnd2
    have hnd' : (rest.map Prod.fst).Nodup := hnd2.2
    have hhead : kv.1 ∉ rest.map Prod.fst := hnd2.1
    rw [List.foldl_cons,
      dictInsert_append acc kv.1 (FieldVal.num kv.2)
        (hacc kv (List.mem_cons_self kv rest)),
      ih (acc ++ [(kv.1, FieldVal.num kv.2)]) hnd' ?_]
    · rw [List.append_assoc]
      simp
    · intro w hw
      rw [List.any_append, hacc w (List.mem_cons_of_mem kv hw), Bool.false_or]
      have hne : kv.1 ≠ w.1 := by
        intro he
        exact hhead (he ▸ List.mem_map_of_mem Prod.fst hw)
      simp [hne]

theorem buildFields_eq (today : String) (conv : List (String × ℚ))
    (hnd : (conv.map Prod.fst).Nodup)
    (hdate : ∀ kv ∈ conv, kv.1 ≠ "date") :
    buildFields today conv =
      ("date", FieldVal.str today) ::
        conv.map (fun kv => (kv.1, FieldVal.num kv.2)) := by
  rw [buildFields, foldl_fieldInsert conv [("date", FieldVal.str today)] hnd ?_]
  · simp
  · intro kv hkv
    have : "date" ≠ kv.1 := fun he => hdate kv hkv he.symm
    simp [this]

/-! ### Claim theorems -/

/-- C1 (amended): for every duplicate-free catalog and every block sequence
in which, for each catalog test `t`, the first block whose text is present
and contains `t` as a substring has text exactly `t` and is immediately
followed by a block with a clean numeric string, the extraction succeeds,
the key list of the result is exactly the catalog, and each test maps to the
text of the block following its anchor, unchanged. -/
theorem parse_clean_catalog_complete (blocks : List Block) (catalog : List String)
    (hnd : catalog.Nodup) (H : ∀ t ∈ catalog, anchoredClean blocks t) :
    ∃ m, parse_extracted_text blocks catalog = some m ∧
      m.map Prod.fst = catalog ∧
      ∀ t i v, t ∈ catalog → findAnchor t blocks = some i →
        blockTextAt blocks (i + 1) = some v → (t, v) ∈ m := by
  have hsome : ∀ u ∈ catalog, (processTest blocks u).isSome := by
    intro u hu
    obtain ⟨i, v, hfa, _, hnext, hclean⟩ := H u hu
    have hpt : processTest blocks u = some v := by
      simp [processTest, rawCandidate, hfa, hnext,
        storedValue_id_of_clean u v hclean]
    simp [hpt]
  have key := parseAux_complete blocks catalog [] hnd hsome (fun u _ => rfl)
  refine ⟨catalog.map (fun u => (u, valueOf blocks u)), ?_, ?_, ?_⟩
  · rw [parse_extracted_text, key]
    simp
  · have hcomp : (Prod.fst ∘ fun u : String => (u, valueOf blocks u)) =
        fun u : String => u := rfl
    rw [List.map_map, hcomp, List.map_id']
  · intro t i v ht hfa hnext
    obtain ⟨i', v', hfa', _, hnext', hclean'⟩ := H t ht
    rw [hfa] at hfa'
    injection hfa' with hi
    subst hi
    rw [hnext] at hnext'
    injection hnext' with hv
    subst hv
    have hpt : processTest blocks t = some v := by
      simp [processTest, rawCandidate, hfa, hnext,
        storedValue_id_of_clean t v hclean']
    exact List.mem_map.mpr ⟨t, ht, by simp [valueOf, hpt]⟩

/-- C1 counterexample: the catalog `["WBC"]` and a block sequence containing
a block with text exactly `"WBC"` immediately followed by the clean numeric
block `"5.2"`; yet the extraction maps `"WBC"` to `"junk"`, the text after
the earlier block `"WBCX"` which contains `"WBC"` as a substring, so the
original claim's conclusion fails. -/
theorem parse_clean_catalog_counterexample :
    blockTextAt blocksFirstMatch 2 = some "WBC" ∧
    blockTextAt blocksFirstMatch 3 = some "5.2" ∧
    isCleanNumeric "5.2" = true ∧
    parse_extracted_text blocksFirstMatch ["WBC"] = some [("WBC", "junk")] ∧
    ("junk" : String) ≠ "5.2" := by
  refine ⟨by decide, by decide, by decide, by decide, by decide⟩

/-- C1 witness: on the end-to-end blocks, with catalog `["WBC", "NEU%"]`,
the amended theorem applies and yields the full extraction result. -/
theorem parse_clean_catalog_complete_witness :
    ∃ m, parse_extracted_text blocksE2E ["WBC", "NEU%"] = some m ∧
      m.map Prod.fst = ["WBC", "NEU%"] ∧
      ∀ t i v, t ∈ ["WBC", "NEU%"] → findAnchor t blocksE2E = some i →
        blockTextAt blocksE2E (i + 1) = some v → (t, v) ∈ m :=
  parse_clean_catalog_complete blocksE2E ["WBC", "NEU%"] (by decide)
    (by
      intro t ht
      fin_cases ht
      · exact ⟨0, "5.2", by decide, by decide, by decide, by decide⟩
      · exact ⟨2, "60", by decide, by decide, by decide, by decide⟩)

/-- C2 counterexample: the candidate `"7.5^9/L"` contains the marker `"^"`
and no space, yet the unit-suffix trim changes it (the Python slice
`[0 : find(" ")]` with `find` returning -1 drops the last character). -/
theorem unitTrim_unchanged_counterexample :
    markers.any (fun m => strContains "7.5^9/L" m) = true ∧
    hasSpace "7.5^9/L" = false ∧
    unitTrim "7.5^9/L" ≠ "7.5^9/L" := by
  refine ⟨by decide, by decide, by decide⟩

/-- C2 (amended): in the unit-suffix trim step, a candidate containing one of
the marker substrings but no space is truncated to all but its final
character (the `[0:-1]` slice), not left unchanged. -/
theorem unitTrim_no_space_drops_last (s : String)
    (hm : markers.any (fun m => strContains s m) = true)
    (hs : hasSpace s = false) :
    unitTrim s = ⟨s.toList.dropLast⟩ :=
  unitTrim_of_marker_no_space s hm hs

/-- C2 witness: the amended rule evaluated at `"7.5^9/L"` yields
`"7.5^9/"`. -/
theorem unitTrim_no_space_drops_last_witness :
    markers.any (fun m => strContains "7.5^9/L" m) = true ∧
    hasSpace "7.5^9/L" = false ∧
    unitTrim "7.5^9/L" = "7.5^9/" :=
  ⟨by decide, by decide,
    (unitTrim_no_space_drops_last "7.5^9/L" (by decide) (by decide)).trans
      (by decide)⟩

/-- C3: when some catalog test occurs as a substring of no block's text, the
per-test processing fails (the unguarded `index + 1` on the `None` anchor)
and the whole extraction aborts with an error instead of returning a partial
mapping. -/
theorem parse_aborts_on_missing_test (blocks : List Block) (catalog : List String)
    (t : String) (ht : t ∈ catalog)
    (hmiss : ∀ b ∈ blocks, blockMatches t b = false) :
    processTest blocks t = none ∧
    parse_extracted_text blocks catalog = none := by
  have hpt : processTest blocks t = none :=
    processTest_eq_none_of_missing blocks t hmiss
  exact ⟨hpt, parseAux_eq_none blocks t catalog [] ht hpt⟩

/-- C3 witness: the test `"WBC"` is absent from `blocksMissing`, and the
extraction over the catalog `["WBC"]` yields an error. -/
theorem parse_aborts_on_missing_test_witness :
    processTest blocksMissing "WBC" = none ∧
    parse_extracted_text blocksMissing ["WBC"] = none :=
  parse_aborts_on_missing_test blocksMissing ["WBC"] "WBC" (by decide) (by decide)

/-- C4: for a test in the percent-style subset, the percent-style trim
truncates a candidate containing a space to everything before the first
space, and leaves a candidate without a space unchanged. -/
theorem percentTrim_space_behavior (t s : String) (ht : t ∈ percentTests) :
    (hasSpace s = true →
      percentTrim t s = ⟨s.toList.takeWhile (fun c => !(c == ' '))⟩) ∧
    (hasSpace s = false → percentTrim t s = s) :=
  ⟨fun hs => percentTrim_of_space t s ht hs,
   fun hs => percentTrim_of_no_space t s hs⟩

/-- C4 witness: for the percent-style test `"BASO"`, the candidate
`"12.3 mg/dl"` trims to `"12.3"` and the candidate `"12.3"` is unchanged. -/
theorem percentTrim_space_behavior_witness :
    "BASO" ∈ percentTests ∧
    percentTrim "BASO" "12.3 mg/dl" = "12.3" ∧
    percentTrim "BASO" "12.3" = "12.3" :=
  ⟨by decide,
    ((percentTrim_space_behavior "BASO" "12.3 mg/dl" (by decide)).1
      (by decide)).trans (by decide),
    (percentTrim_space_behavior "BASO" "12.3" (by decide)).2 (by decide)⟩

/-- C5: a successful anchor lookup returns the position of the first block
whose text is present and contains the test as a substring (every earlier
block fails the match), and the raw candidate value is the text of the block
at the anchor position plus one. -/
theorem anchor_is_first_substring_match (blocks : List Block) (t : String)
    (i : Nat) (h : findAnchor t blocks = some i) :
    (∃ b, blocks[i]? = some b ∧ blockMatches t b = true) ∧
    (∀ j, j < i → ∀ b, blocks[j]? = some b → blockMatches t b = false) ∧
    rawCandidate blocks t = blockTextAt blocks (i + 1) := by
  obtain ⟨h1, h2⟩ := findAnchor_some t blocks i h
  exact ⟨h1, h2, by simp [rawCandidate, h]⟩

/-- C5 witness: in `blocksSubstring` the anchor for `"NEU%"` is index 1,
whose text `"xNEU%y"` strictly contains the test (substring containment, not
token equality), skipping the text-less block 0; the candidate is the text
at index 2. -/
theorem anchor_is_first_substring_match_witness :
    findAnchor "NEU%" blocksSubstring = some 1 ∧
    rawCandidate blocksSubstring "NEU%" = blockTextAt blocksSubstring 2 :=
  ⟨by decide,
    (anchor_is_first_substring_match blocksSubstring "NEU%" 1 (by decide)).2.2⟩

/-- C6: each value is converted by substituting commas with periods and then
parsing as a number, so `"4,5"` and `"4.5"` both convert to 4.5; the
conversion of the whole mapping fails exactly when some comma-substituted
value is unparseable, and that failure aborts the insertion. -/
theorem convert_comma_decimal (m : List (String × String)) (today : String) :
    convertValue "4,5" = some ((9 : ℚ) / 2) ∧
    convertValue "4.5" = some ((9 : ℚ) / 2) ∧
    (convertValues m = none ↔
      ∃ kv ∈ m, parseDecimal (commaToPeriod kv.2) = none) ∧
    (convertValues m = none → insert_to_airtable today m = none) := by
  refine ⟨?_, ?_, convertValues_none_iff m, fun h => by simp [insert_to_airtable, h]⟩
  · have e : convertValue "4,5" = some (mkRat 45 10) := rfl
    rw [e]
    norm_num [Rat.mkRat_eq_div]
  · have e : convertValue "4.5" = some (mkRat 45 10) := rfl
    rw [e]
    norm_num [Rat.mkRat_eq_div]

/-- C6 witness: `"4,5"` converts to 4.5, and the empty value string makes
the conversion, and with it the insertion, fail. -/
theorem convert_comma_decimal_witness :
    convertValue "4,5" = some ((9 : ℚ) / 2) ∧
    convertValues [("WBC", "")] = none ∧
    insert_to_airtable "2024-01-01" [("WBC", "")] = none := by
  obtain ⟨h1, _, h3, h4⟩ := convert_comma_decimal [("WBC", "")] "2024-01-01"
  refine ⟨h1, ?_, ?_⟩
  · exact h3.mpr ⟨("WBC", ""), List.mem_cons_self _ _, rfl⟩
  · exact h4 (h3.mpr ⟨("WBC", ""), List.mem_cons_self _ _, rfl⟩)

/-- C7: when every value converts, the submitted payload is exactly one
record wrapped as records/fields, whose fields map `"date"` to the invocation
date string followed by each test mapped to its converted numeric value. -/
theorem insert_builds_single_record (today : String)
    (m : List (String × String)) (conv : List (String × ℚ))
    (hconv : convertValues m = some conv)
    (hdate : "date" ∉ m.map Prod.fst)
    (hnd : (m.map Prod.fst).Nodup) :
    insert_to_airtable today m =
      some (conv,
        ⟨[("date", FieldVal.str today) ::
            conv.map (fun kv => (kv.1, FieldVal.num kv.2))]⟩) := by
  obtain ⟨hkeys, _⟩ := convertValues_some_spec m conv hconv
  have hnd' : (conv.map Prod.fst).Nodup := by rw [hkeys]; exact hnd
  have hdate' : ∀ kv ∈ conv, kv.1 ≠ "date" := by
    intro kv hkv he
    apply hdate
    rw [← hkeys, ← he]
    exact List.mem_map_of_mem Prod.fst hkv
  simp [insert_to_airtable, hconv, buildFields_eq today conv hnd' hdate']

/-- C7 witness: the extraction result `{"WBC": "5,2"}` with date
`"2024-01-01"` is submitted as one record with fields
`{"date": "2024-01-01", "WBC": 5.2}`. -/
theorem insert_builds_single_record_witness :
    convertValues [("WBC", "5,2")] = some [("WBC", mkRat 52 10)] ∧
    insert_to_airtable "2024-01-01" [("WBC", "5,2")] =
      some ([("WBC", mkRat 52 10)],
        ⟨[[("date", FieldVal.str "2024-01-01"),
           ("WBC", FieldVal.num (mkRat 52 10))]]⟩) ∧
    mkRat 52 10 = (26 : ℚ) / 5 := by
  refine ⟨rfl, ?_, by norm_num [Rat.mkRat_eq_div]⟩
  exact (insert_builds_single_record "2024-01-01" [("WBC", "5,2")]
    [("WBC", mkRat 52 10)] rfl (by decide) (by decide)).trans (by rfl)

/-- C8 counterexample: on a successful invocation the handler's response
dict carries the body under the field `"insertedRows"`, not `"bloodResult"`,
and the handler returns `None` rather than the envelope. -/
theorem handler_envelope_counterexample :
    (lambda_handler "2024-01-01" blocksHandler ["WBC"]).map
        (fun r => (r.logged.statusCode, r.logged.bodyField, r.returned)) =
      some (200, "insertedRows", none) ∧
    ("insertedRows" : String) ≠ "bloodResult" := by
  exact ⟨by rfl, by decide⟩

/-- C8 (amended): on a successful invocation the handler constructs and logs
a response envelope with statusCode 200 whose body holds the string
representation of the inserted payload under the field `"insertedRows"`, and
returns no value (`None`), the source having no return statement. -/
theorem handler_logs_envelope_returns_none (today : String) (blocks : List Block)
    (catalog : List String) (br : List (String × String))
    (conv : List (String × ℚ)) (payload : AirtablePayload)
    (h1 : parse_extracted_text blocks catalog = some br)
    (h2 : insert_to_airtable today br = some (conv, payload)) :
    lambda_handler today blocks catalog =
      some ⟨⟨200, "insertedRows", reprStr payload⟩, none⟩ := by
  simp [lambda_handler, h1, h2]

/-- C8 witness: a minimal successful invocation, with the logged envelope and
the `None` return value. -/
theorem handler_logs_envelope_returns_none_witness :
    parse_extracted_text blocksHandler ["WBC"] = some [("WBC", "5.2")] ∧
    insert_to_airtable "2024-01-01" [("WBC", "5.2")] =
      some ([("WBC", mkRat 52 10)], payloadHandler) ∧
    lambda_handler "2024-01-01" blocksHandler ["WBC"] =
      some ⟨⟨200, "insertedRows", reprStr payloadHandler⟩, none⟩ :=
  ⟨by decide, by rfl,
    handler_logs_envelope_returns_none "2024-01-01" blocksHandler ["WBC"]
      [("WBC", "5.2")] [("WBC", mkRat 52 10)] payloadHandler (by decide) (by rfl)⟩

/-- C9: for any test, a candidate value containing one of the marker
substrings and no space is stored with its final character removed, since
`next_block[0 : next_block.find(" ")]` slices with -1 when no space exists. -/
theorem storedValue_marker_no_space_drops_last (t s : String)
    (hm : markers.any (fun m => strContains s m) = true)
    (hs : hasSpace s = false) :
    storedValue t s = ⟨s.toList.dropLast⟩ := by
  rw [storedValue, percentTrim_of_no_space t s hs]
  exact unitTrim_of_marker_no_space s hm hs

/-- C9 witness: `"7.5%"` is stored as `"7.5"` and `"7.5^9/L"` as
`"7.5^9/"`. -/
theorem storedValue_marker_no_space_drops_last_witness :
    storedValue "WBC" "7.5%" = "7.5" ∧
    storedValue "NEU%" "7.5^9/L" = "7.5^9/" :=
  ⟨(storedValue_marker_no_space_drops_last "WBC" "7.5%"
      (by decide) (by decide)).trans (by decide),
   (storedValue_marker_no_space_drops_last "NEU%" "7.5^9/L"
      (by decide) (by decide)).trans (by decide)⟩

/-- C10: a successful insertion returns the blood-result mapping mutated in
place: the key list is unchanged (no key added or removed, order kept) and
every value is replaced by the number parsed from its comma-substituted
string. -/
theorem insert_mutates_values_in_place (today : String)
    (m : List (String × String)) (conv : List (String × ℚ))
    (p : AirtablePayload)
    (h : insert_to_airtable today m = some (conv, p)) :
    conv.map Prod.fst = m.map Prod.fst ∧
    List.Forall₂
      (fun a b => a.1 = b.1 ∧ parseDecimal (commaToPeriod a.2) = some b.2)
      m conv := by
  have hc : convertValues m = some conv := by
    rw [insert_to_airtable] at h
    cases hcv : convertValues m with
    | none => rw [hcv] at h; exact Option.noConfusion h
    | some c =>
      rw [hcv] at h
      simp only [Option.some.injEq, Prod.mk.injEq] at h
      exact congrArg some h.1
  exact convertValues_some_spec m conv hc

/-- C10 witness: after inserting `{"WBC": "5,2", "RBC": "4.5"}` the mapping
keeps exactly its keys and holds the parsed numbers 5.2 and 4.5. -/
theorem insert_mutates_values_in_place_witness :
    ([("WBC", mkRat 52 10), ("RBC", mkRat 45 10)].map Prod.fst =
      [("WBC", "5,2"), ("RBC", "4.5")].map Prod.fst) ∧
    List.Forall₂
      (fun (a : String × String) (b : String × ℚ) =>
        a.1 = b.1 ∧ parseDecimal (commaToPeriod a.2) = some b.2)
      [("WBC", "5,2"), ("RBC", "4.5")]
      [("WBC", mkRat 52 10), ("RBC", mkRat 45 10)] :=
  insert_mutates_values_in_place "2024-01-02"
    [("WBC", "5,2"), ("RBC", "4.5")]
    [("WBC", mkRat 52 10), ("RBC", mkRat 45 10)]
    ⟨[[("date", FieldVal.str "2024-01-02"), ("WBC", FieldVal.num (mkRat 52 10)),
       ("RBC", FieldVal.num (mkRat 45 10))]]⟩
    (by rfl)

end BloodExtract
